import Mathlib

/-!
Verification of the `TreeStore` in-memory tree index (`src/solution.py`).

The program stores a list of dict items, each with an `"id"` field, a
`"parent"` field (another item's id or the string sentinel `"root"`), and
arbitrary extra fields.  Construction builds three mappings:

  * `itemId` — a plain dict from id to item (later items overwrite earlier
    ones at the same id, keeping the key's original position);
  * `parentChild` — a `defaultdict(list)` from parent value to the list of
    items with that parent, in input order;
  * `idAllParents` — a `defaultdict(list)` from id to the item's ancestor
    chain, computed by walking `parent` links until the sentinel.

Queries `getAll`, `getItem`, `getChildren`, `getAllParents` read these
mappings; the id-accepting ones raise `IdNotFoundError` when the id is not
a key of `itemId`.  We model Python dicts as ordered association lists,
`defaultdict.__getitem__` as a state-passing lookup that inserts the empty
default on a miss, exceptions as `Except`, and the unbounded `while` walk
with explicit fuel.
-/

/-- Python values that occur as ids, parents and field values in this
program: integers, strings and `None`. -/
inductive Value where
  | int : Int → Value
  | str : String → Value
  | none : Value
deriving DecidableEq, Repr

/-- The root sentinel: the Python string `"root"`. -/
def rootSentinel : Value := Value.str "root"

/-- An input item: the two required fields `"id"` and `"parent"`, plus the
arbitrary remaining key/value pairs of the Python dict. -/
structure Item where
  id : Value
  parent : Value
  extra : List (String × Value)
deriving DecidableEq, Repr

/-- A Python dict with `Value` keys, as an insertion-ordered association
list. -/
abbrev Dict (β : Type) := List (Value × β)

namespace Dict

/-- Python `d[k]` as a total lookup: the value at the first (for a real
dict, only) entry with key `k`, or `none` when `k ∉ d`. -/
def get? : Dict β → Value → Option β
  | [], _ => Option.none
  | (k', v) :: rest, k => if k' = k then some v else get? rest k

/-- Python `d[k] = v`: overwrite in place when the key exists (keeping its
position), otherwise append a new entry. -/
def insert : Dict β → Value → β → Dict β
  | [], k, v => [(k, v)]
  | (k', v') :: rest, k, v =>
    if k' = k then (k, v) :: rest else (k', v') :: insert rest k v

/-- Python `d[k].append(x)` on a `defaultdict(list)`: extend the list at
`k`, materialising `[]` first when `k` is absent. -/
def appendAt : Dict (List β) → Value → β → Dict (List β)
  | [], k, x => [(k, [x])]
  | (k', l) :: rest, k, x =>
    if k' = k then (k, l ++ [x]) :: rest else (k', l) :: appendAt rest k x

/-- The value a `defaultdict(list)` yields at `k`: the stored list, or `[]`. -/
def getD (d : Dict (List β)) (k : Value) : List β :=
  (get? d k).getD []

/-- Python `d[k]` on a `defaultdict(list)`: returns the value at `k` and
the updated dict — a miss inserts `(k, [])` at the end, mutating `d`. -/
def getDefault (d : Dict (List β)) (k : Value) : List β × Dict (List β) :=
  match get? d k with
  | some v => (v, d)
  | Option.none => ([], d ++ [(k, [])])

end Dict

/-- The state of a constructed `TreeStore`: the input list and the three
mappings built in `__init__`. -/
structure TreeStore where
  items : List Item
  itemId : Dict Item
  parentChild : Dict (List Item)
  idAllParents : Dict (List Item)
deriving DecidableEq, Repr

/-- The loop of `TreeStore._createDictsForItems`: one pass over the items,
filling `itemId[item["id"]] = item` and `parentChild[item["parent"]].append(item)`. -/
def createDictsGo : Dict Item → Dict (List Item) → List Item → Dict Item × Dict (List Item)
  | itemId, parentChild, [] => (itemId, parentChild)
  | itemId, parentChild, item :: rest =>
    createDictsGo (itemId.insert item.id item) (parentChild.appendAt item.parent item) rest

/-- `TreeStore._createDictsForItems`: build `itemId` and `parentChild`
from the input list. -/
def createDictsForItems (items : List Item) : Dict Item × Dict (List Item) :=
  createDictsGo [] [] items

/-- The `while parent != "root"` walk inside `TreeStore._calculateParents`,
started at a parent value: collect `itemId[parent]`, step to that item's
parent, stop at the sentinel.  The walk is unbounded in the source; `fuel`
bounds it here, and `none` models both fuel exhaustion (the loop still
running) and a `KeyError` on a dangling parent reference. -/
def parentChainFuel (itemId : Dict Item) : Nat → Value → Option (List Item)
  | 0, _ => Option.none
  | fuel + 1, parent =>
    if parent = rootSentinel then some []
    else
      match itemId.get? parent with
      | Option.none => Option.none
      | some it => (parentChainFuel itemId fuel it.parent).map (it :: ·)

/-- The `for key in itemId` loop of `TreeStore._calculateParents`: walk the
ancestor chain of each key of `itemId` in order.  A key whose chain is empty
is never inserted into the `idAllParents` defaultdict (its loop body never
runs); a nonempty chain is appended element by element under that key. -/
def calcParentsGo (itemId : Dict Item) (fuel : Nat) : List (Value × Item) → Option (Dict (List Item))
  | [] => some []
  | (k, it) :: rest =>
    match parentChainFuel itemId fuel it.parent with
    | Option.none => Option.none
    | some chain =>
      match calcParentsGo itemId fuel rest with
      | Option.none => Option.none
      | some d => some (if chain.isEmpty then d else (k, chain) :: d)

/-- `TreeStore._calculateParents`: ancestor chains for every key of
`itemId`, iterated in dict order. -/
def calculateParents (itemId : Dict Item) (fuel : Nat) : Option (Dict (List Item)) :=
  calcParentsGo itemId fuel itemId

/-- `TreeStore.__init__`: build the two dicts, then the ancestor map.
`none` when some ancestor walk fails to finish (cycle, dangling parent, or
too little fuel) — in Python that run would hang or raise `KeyError`. -/
def mkTreeStore (items : List Item) (fuel : Nat) : Option TreeStore :=
  let dicts := createDictsForItems items
  match calculateParents dicts.1 fuel with
  | Option.none => Option.none
  | some allParents => some ⟨items, dicts.1, dicts.2, allParents⟩

namespace TreeStore

/-- `TreeStore.getAll`: the stored input list. -/
def getAll (ts : TreeStore) : List Item := ts.items

/-- `TreeStore.getItem`: raise `IdNotFoundError(ID)` when `ID` is not a key
of `itemId`, else return `itemId[ID]`.  `Except.error ID` models the raised
exception carrying the offending id. -/
def getItem (ts : TreeStore) (ID : Value) : Except Value Item :=
  match ts.itemId.get? ID with
  | Option.none => Except.error ID
  | some it => Except.ok it

/-- `TreeStore.getChildren`: raise `IdNotFoundError(ID)` when `ID` is not a
key of `itemId`, else return `parentChild[ID]`.  The defaultdict access may
insert an empty entry, so the (possibly updated) store is returned too. -/
def getChildren (ts : TreeStore) (ID : Value) : Except Value (List Item) × TreeStore :=
  match ts.itemId.get? ID with
  | Option.none => (Except.error ID, ts)
  | some _ =>
    let r := ts.parentChild.getDefault ID
    (Except.ok r.1, { ts with parentChild := r.2 })

/-- `TreeStore.getAllParents`: raise `IdNotFoundError(ID)` when `ID` is not
a key of `itemId`, else return `idAllParents[ID]`.  The defaultdict access
may insert an empty entry, so the (possibly updated) store is returned too. -/
def getAllParents (ts : TreeStore) (ID : Value) : Except Value (List Item) × TreeStore :=
  match ts.itemId.get? ID with
  | Option.none => (Except.error ID, ts)
  | some _ =>
    let r := ts.idAllParents.getDefault ID
    (Except.ok r.1, { ts with idAllParents := r.2 })

end TreeStore

/-- The item list of the repository's tests (`testValidCommands`). -/
def testItems : List Item :=
  [ ⟨Value.int 1, rootSentinel, []⟩,
    ⟨Value.int 2, Value.int 1, [("type", Value.str "test")]⟩,
    ⟨Value.int 3, Value.int 1, [("type", Value.str "test")]⟩,
    ⟨Value.int 4, Value.int 2, [("type", Value.str "test")]⟩,
    ⟨Value.int 5, Value.int 2, [("type", Value.str "test")]⟩,
    ⟨Value.int 6, Value.int 2, [("type", Value.str "test")]⟩,
    ⟨Value.int 7, Value.int 4, [("type", Value.none)]⟩,
    ⟨Value.int 8, Value.int 4, [("type", Value.none)]⟩ ]

/-- Spec-side description of an ancestor chain (used to state C1): `chain`
is the ancestor sequence for parent value `v` when, nearest first, its head
is the item whose id is `v`, each element's parent is the next element's id,
and the last element's parent is the root sentinel. -/
inductive SpecAncestorChain (items : List Item) : Value → List Item → Prop where
  | root : SpecAncestorChain items rootSentinel []
  | cons {p : Item} {v : Value} {chain : List Item} :
      p ∈ items → p.id = v → SpecAncestorChain items p.parent chain →
      SpecAncestorChain items v (p :: chain)

/-- Spec-side "the item occurring later in the input sequence" (used to
state C8): the last element of `items` whose id is `v`. -/
def lastWithId : List Item → Value → Option Item
  | [], _ => Option.none
  | it :: rest, v =>
    match lastWithId rest v with
    | some j => some j
    | Option.none => if it.id = v then some it else Option.none

/-- A store with no items, used as the `Option.getD` fallback when naming
the concrete store built from `testItems`. -/
def emptyStore : TreeStore := ⟨[], [], [], []⟩

/-- The concrete store the repository's tests construct (fuel 9 is more
than the longest ancestor chain needs). -/
def testStore : TreeStore := (mkTreeStore testItems 9).getD emptyStore

/-- An input list with a duplicated id (id 1 appears first and last),
otherwise well-formed. -/
def dupItems : List Item :=
  [ ⟨Value.int 1, rootSentinel, []⟩,
    ⟨Value.int 2, Value.int 1, []⟩,
    ⟨Value.int 1, rootSentinel, [("type", Value.str "new")]⟩ ]

/-- A rank function witnessing acyclicity of the reference inputs: items
are numbered by their integer id, and every parent has a smaller id. -/
def intRank : Value → Nat
  | Value.int n => n.toNat
  | _ => 0

/-! ### Association-list lemmas -/

namespace Dict

theorem get?_insert_self (d : Dict β) (k : Value) (v : β) :
    (d.insert k v).get? k = some v := by
  induction d with
  | nil => simp [insert, get?]
  | cons hd tl ih =>
    by_cases h : hd.1 = k
    · simp [insert, h, get?]
    · simp [insert, h, get?, ih]

theorem get?_insert_ne (d : Dict β) {k k' : Value} (v : β) (h : k' ≠ k) :
    (d.insert k v).get? k' = d.get? k' := by
  induction d with
  | nil => simp [insert, get?, (Ne.symm h)]
  | cons hd tl ih =>
    by_cases hk : hd.1 = k
    · subst hk
      by_cases hk' : hd.1 = k'
      · exact absurd hk'.symm h
      · simp [insert, get?, hk', Ne.symm h, ih]
    · by_cases hk' : hd.1 = k'
      · simp [insert, get?, hk, hk', h]
      · simp [insert, get?, hk, hk', h, ih]

theorem mem_insert {d : Dict β} {k : Value} {v : β} {q : Value × β}
    (h : q ∈ d.insert k v) : q ∈ d ∨ q = (k, v) := by
  induction d with
  | nil => simp [insert] at h; simp [h]
  | cons hd tl ih =>
    by_cases hk : hd.1 = k
    · simp [insert, hk] at h
      rcases h with h | h
      · right; simp [h]
      · left; simp [h]
    · simp [insert, hk] at h
      rcases h with h | h
      · left; simp [h]
      · rcases ih h with h' | h'
        · left; simp [h']
        · right; exact h'

theorem mem_keys_insert {d : Dict β} {k a : Value} {v : β} :
    a ∈ (d.insert k v).map Prod.fst ↔ a ∈ d.map Prod.fst ∨ a = k := by
  induction d with
  | nil => simp [insert, eq_comm]
  | cons hd tl ih =>
    by_cases hk : hd.1 = k
    · subst hk
      simp [insert, eq_comm]
      tauto
    · simp [insert, hk, ih]
      tauto

theorem nodupKeys_insert {d : Dict β} (k : Value) (v : β)
    (h : (d.map Prod.fst).Nodup) : ((d.insert k v).map Prod.fst).Nodup := by
  induction d with
  | nil => simp [insert]
  | cons hd tl ih =>
    simp only [List.map_cons, List.nodup_cons] at h
    by_cases hk : hd.1 = k
    · subst hk
      simpa [insert] using h
    · simp only [insert, hk, if_false, List.map_cons, List.nodup_cons]
      refine ⟨fun hmem => ?_, ih h.2⟩
      rcases mem_keys_insert.mp hmem with h' | h'
      · exact h.1 h'
      · exact hk h'

theorem get?_mem {d : Dict β} {k : Value} {v : β} (h : d.get? k = some v) :
    (k, v) ∈ d := by
  induction d with
  | nil => simp [get?] at h
  | cons hd tl ih =>
    obtain ⟨a, b⟩ := hd
    by_cases hk : a = k
    · simp [get?, hk] at h
      subst hk
      subst h
      exact List.mem_cons_self _ _
    · simp [get?, hk] at h
      exact List.mem_cons_of_mem _ (ih h)

theorem get?_isSome_of_mem {d : Dict β} {k : Value} {v : β} (h : (k, v) ∈ d) :
    (d.get? k).isSome := by
  induction d with
  | nil => simp at h
  | cons hd tl ih =>
    by_cases hk : hd.1 = k
    · simp [get?, hk]
    · simp only [List.mem_cons] at h
      rcases h with h | h
      · subst h; simp at hk
      · simpa [get?, hk] using ih h

theorem get?_append (d₁ d₂ : Dict β) (k : Value) :
    (d₁ ++ d₂).get? k =
      match d₁.get? k with
      | some v => some v
      | Option.none => d₂.get? k := by
  induction d₁ with
  | nil => simp [get?]
  | cons hd tl ih =>
    by_cases hk : hd.1 = k
    · simp [get?, hk]
    · simpa [get?, hk] using ih

theorem getD_appendAt_self (d : Dict (List β)) (k : Value) (x : β) :
    (d.appendAt k x).getD k = d.getD k ++ [x] := by
  induction d with
  | nil => simp [appendAt, getD, get?]
  | cons hd tl ih =>
    by_cases hk : hd.1 = k
    · simp [appendAt, hk, getD, get?]
    · simpa [appendAt, hk, getD, get?] using ih

theorem getD_appendAt_ne (d : Dict (List β)) {k k' : Value} (x : β) (h : k' ≠ k) :
    (d.appendAt k x).getD k' = d.getD k' := by
  induction d with
  | nil => simp [appendAt, getD, get?, Ne.symm h]
  | cons hd tl ih =>
    by_cases hk : hd.1 = k
    · subst hk
      simp [appendAt, getD, get?, Ne.symm h]
    · by_cases hk' : hd.1 = k'
      · simp [appendAt, hk, getD, get?, hk', h]
      · simpa [appendAt, hk, getD, get?, hk', h] using ih

theorem getDefault_fst (d : Dict (List β)) (k : Value) :
    (d.getDefault k).1 = d.getD k := by
  unfold getDefault getD
  cases h : d.get? k <;> simp

theorem getDefault_snd_getD (d : Dict (List β)) (k k' : Value) :
    (d.getDefault k).2.getD k' = d.getD k' := by
  unfold getDefault
  cases h : d.get? k with
  | some v => simp
  | none =>
    by_cases hk : k' = k
    · subst hk
      simp [getD, get?_append, h, get?]
    · simp [getD, get?_append, get?, Ne.symm hk]
      cases d.get? k' <;> simp

end Dict

/-! ### `lastWithId` lemmas -/

theorem lastWithId_cons (it : Item) (rest : List Item) (v : Value) :
    lastWithId (it :: rest) v =
      match lastWithId rest v with
      | some j => some j
      | Option.none => if it.id = v then some it else Option.none := rfl

theorem lastWithId_mem {its : List Item} {v : Value} {j : Item}
    (h : lastWithId its v = some j) : j ∈ its ∧ j.id = v := by
  induction its with
  | nil => simp [lastWithId] at h
  | cons it rest ih =>
    unfold lastWithId at h
    cases hr : lastWithId rest v with
    | some j' =>
      rw [hr] at h
      cases h
      rcases ih hr with ⟨hmem, hid⟩
      exact ⟨List.mem_cons_of_mem _ hmem, hid⟩
    | none =>
      rw [hr] at h
      by_cases hid : it.id = v
      · simp [hid] at h
        subst h
        exact ⟨List.mem_cons_self _ _, hid⟩
      · simp [hid] at h

theorem lastWithId_isSome {its : List Item} {v : Value} {it : Item}
    (hmem : it ∈ its) (hid : it.id = v) : (lastWithId its v).isSome := by
  induction its with
  | nil => simp at hmem
  | cons hd rest ih =>
    unfold lastWithId
    cases hr : lastWithId rest v with
    | some j' => simp
    | none =>
      rcases List.mem_cons.mp hmem with h | h
      · subst h
        simp [hid]
      · have := ih h
        rw [hr] at this
        simp at this

theorem lastWithId_of_nodup {its : List Item} {v : Value} {it : Item}
    (hnodup : (its.map Item.id).Nodup) (hmem : it ∈ its) (hid : it.id = v) :
    lastWithId its v = some it := by
  cases hs : lastWithId its v with
  | none =>
    have := lastWithId_isSome hmem hid
    rw [hs] at this
    simp at this
  | some j =>
    rcases lastWithId_mem hs with ⟨hjmem, hjid⟩
    have : j = it :=
      List.inj_on_of_nodup_map hnodup hjmem hmem (by rw [hjid, hid])
    rw [this]

/-! ### Characterizing the two dicts built by `_createDictsForItems` -/

theorem get?_createDictsGo_fst (its : List Item) :
    ∀ (d₀ : Dict Item) (p₀ : Dict (List Item)) (v : Value),
      (createDictsGo d₀ p₀ its).1.get? v =
        match lastWithId its v with
        | some it => some it
        | Option.none => d₀.get? v := by
  induction its with
  | nil => intro d₀ p₀ v; simp [createDictsGo, lastWithId]
  | cons it rest ih =>
    intro d₀ p₀ v
    rw [createDictsGo, ih, lastWithId_cons]
    cases hr : lastWithId rest v with
    | some j => simp
    | none =>
      by_cases hid : it.id = v
      · subst hid
        simp [Dict.get?_insert_self]
      · simp [hid, Dict.get?_insert_ne _ _ (fun h => hid h.symm)]

theorem getD_createDictsGo_snd (its : List Item) :
    ∀ (d₀ : Dict Item) (p₀ : Dict (List Item)) (v : Value),
      (createDictsGo d₀ p₀ its).2.getD v =
        p₀.getD v ++ its.filter (fun it => it.parent == v) := by
  induction its with
  | nil => intro d₀ p₀ v; simp [createDictsGo]
  | cons it rest ih =>
    intro d₀ p₀ v
    rw [createDictsGo, ih]
    by_cases hp : it.parent = v
    · subst hp
      simp [Dict.getD_appendAt_self, List.filter_cons]
    · rw [Dict.getD_appendAt_ne _ _ (fun h => hp h.symm)]
      simp [List.filter_cons, hp]

theorem mem_createDictsGo_fst (its : List Item) :
    ∀ (d₀ : Dict Item) (p₀ : Dict (List Item)) (q : Value × Item),
      q ∈ (createDictsGo d₀ p₀ its).1 → q ∈ d₀ ∨ (q.2 ∈ its ∧ q.2.id = q.1) := by
  induction its with
  | nil => intro d₀ p₀ q hq; exact Or.inl hq
  | cons it rest ih =>
    intro d₀ p₀ q hq
    rw [createDictsGo] at hq
    rcases ih _ _ _ hq with h | h
    · rcases Dict.mem_insert h with h' | h'
      · exact Or.inl h'
      · subst h'
        exact Or.inr ⟨List.mem_cons_self _ _, rfl⟩
    · exact Or.inr ⟨List.mem_cons_of_mem _ h.1, h.2⟩

theorem nodupKeys_createDictsGo_fst (its : List Item) :
    ∀ (d₀ : Dict Item) (p₀ : Dict (List Item)),
      (d₀.map Prod.fst).Nodup → ((createDictsGo d₀ p₀ its).1.map Prod.fst).Nodup := by
  induction its with
  | nil => intro d₀ p₀ h; exact h
  | cons it rest ih =>
    intro d₀ p₀ h
    rw [createDictsGo]
    exact ih _ _ (Dict.nodupKeys_insert _ _ h)

theorem get?_itemId_isSome_iff (its : List Item) (v : Value) :
    ((createDictsForItems its).1.get? v).isSome ↔ ∃ it ∈ its, it.id = v := by
  rw [createDictsForItems, get?_createDictsGo_fst]
  cases hs : lastWithId its v with
  | none =>
    simp only [Dict.get?]
    constructor
    · intro h; simp at h
    · rintro ⟨it, hmem, hid⟩
      have := lastWithId_isSome hmem hid
      rw [hs] at this
      simp at this
  | some j =>
    simp only [Option.isSome_some, true_iff]
    rcases lastWithId_mem hs with ⟨hmem, hid⟩
    exact ⟨j, hmem, hid⟩

/-! ### The ancestor walk -/

theorem parentChainFuel_rootSentinel {itemId : Dict Item} {fuel : Nat} {c : List Item}
    (h : parentChainFuel itemId fuel rootSentinel = some c) : c = [] := by
  cases fuel with
  | zero => simp [parentChainFuel] at h
  | succ n =>
    simp [parentChainFuel] at h
    exact h

theorem parentChainFuel_spec {itemId : Dict Item} {items : List Item}
    (hent : ∀ q ∈ itemId, q.2 ∈ items ∧ q.2.id = q.1) :
    ∀ (fuel : Nat) (v : Value) (c : List Item),
      parentChainFuel itemId fuel v = some c → SpecAncestorChain items v c := by
  intro fuel
  induction fuel with
  | zero => intro v c h; simp [parentChainFuel] at h
  | succ n ih =>
    intro v c h
    rw [parentChainFuel] at h
    by_cases hroot : v = rootSentinel
    · rw [if_pos hroot] at h
      cases h
      subst hroot
      exact SpecAncestorChain.root
    · rw [if_neg hroot] at h
      split at h
      · simp at h
      · rename_i it heq
        rcases Option.map_eq_some'.mp h with ⟨c', hrec, hcc⟩
        subst hcc
        rcases hent _ (Dict.get?_mem heq) with ⟨hmem, hid⟩
        exact SpecAncestorChain.cons hmem hid (ih _ _ hrec)

theorem parentChainFuel_total {d : Dict Item} {rank : Value → Nat}
    (hclosed : ∀ q ∈ d, q.2.parent = rootSentinel ∨ (d.get? q.2.parent).isSome)
    (hrank : ∀ p ∈ d, ∀ q ∈ d, q.1 = p.2.parent → rank q.1 < rank p.1) :
    ∀ (n : Nat) (v : Value) (it : Item), d.get? v = some it → rank v ≤ n →
      ∃ c, parentChainFuel d (n + 1) it.parent = some c := by
  intro n
  induction n using Nat.strong_induction_on with
  | _ n ih =>
    intro v it hget hle
    by_cases hroot : it.parent = rootSentinel
    · exact ⟨[], by rw [parentChainFuel, if_pos hroot]⟩
    · have hv : (v, it) ∈ d := Dict.get?_mem hget
      rcases hclosed _ hv with h | h
      · exact absurd h hroot
      · cases hget' : d.get? it.parent with
        | none => rw [hget'] at h; simp at h
        | some it' =>
          have hlt : rank it.parent < rank v :=
            hrank _ hv _ (Dict.get?_mem hget') rfl
          have hn : 1 ≤ n := lt_of_lt_of_le (Nat.lt_of_le_of_lt (Nat.zero_le _) hlt) hle
          obtain ⟨m, rfl⟩ : ∃ m, n = m + 1 := ⟨n - 1, by omega⟩
          have hm : rank it.parent ≤ m := by omega
          rcases ih m (by omega) it.parent it' hget' hm with ⟨c, hc⟩
          refine ⟨it' :: c, ?_⟩
          rw [parentChainFuel, if_neg hroot, hget']
          simp [hc]

theorem calcParentsGo_total {itemId : Dict Item} {fuel : Nat} :
    ∀ es : List (Value × Item),
      (∀ q ∈ es, ∃ c, parentChainFuel itemId fuel q.2.parent = some c) →
      ∃ ap, calcParentsGo itemId fuel es = some ap := by
  intro es
  induction es with
  | nil => intro _; exact ⟨[], rfl⟩
  | cons q rest ih =>
    intro h
    obtain ⟨k, it⟩ := q
    rcases h _ (List.mem_cons_self _ _) with ⟨c, hc⟩
    rcases ih (fun q hq => h q (List.mem_cons_of_mem _ hq)) with ⟨ap, hap⟩
    exact ⟨if c.isEmpty then ap else (k, c) :: ap, by rw [calcParentsGo, hc, hap]⟩

theorem calcParentsGo_keys {itemId : Dict Item} {fuel : Nat} :
    ∀ (es : List (Value × Item)) (ap : Dict (List Item)),
      calcParentsGo itemId fuel es = some ap →
      ∀ q ∈ ap, q.1 ∈ es.map Prod.fst := by
  intro es
  induction es with
  | nil =>
    intro ap h q hq
    cases h
    simp at hq
  | cons e rest ih =>
    intro ap h q hq
    obtain ⟨k, it⟩ := e
    rw [calcParentsGo] at h
    cases hc : parentChainFuel itemId fuel it.parent with
    | none => rw [hc] at h; cases h
    | some c =>
      rw [hc] at h
      cases hr : calcParentsGo itemId fuel rest with
      | none => rw [hr] at h; cases h
      | some d =>
        rw [hr] at h
        simp only [Option.some_inj] at h
        subst h
        by_cases hemp : c.isEmpty
        · rw [if_pos hemp] at hq
          exact List.mem_cons_of_mem _ (ih _ hr _ hq)
        · rw [if_neg hemp] at hq
          rcases List.mem_cons.mp hq with h' | h'
          · subst h'
            simp
          · exact List.mem_cons_of_mem _ (ih _ hr _ h')

theorem get?_eq_none_of_notMem_keys {β : Type} {d : Dict β} {k : Value}
    (h : k ∉ d.map Prod.fst) : d.get? k = Option.none := by
  cases hs : d.get? k with
  | none => rfl
  | some v =>
    exact absurd (List.mem_map_of_mem Prod.fst (Dict.get?_mem hs)) h

theorem calcParentsGo_getD {itemId : Dict Item} {fuel : Nat} :
    ∀ (es : List (Value × Item)) (ap : Dict (List Item)),
      calcParentsGo itemId fuel es = some ap →
      (es.map Prod.fst).Nodup →
      ∀ (k : Value) (it : Item), (k, it) ∈ es →
      ∃ c, parentChainFuel itemId fuel it.parent = some c ∧ ap.getD k = c := by
  intro es
  induction es with
  | nil =>
    intro ap h _ k it hmem
    simp at hmem
  | cons e rest ih =>
    intro ap h hnodup k it hmem
    obtain ⟨k₀, it₀⟩ := e
    rw [calcParentsGo] at h
    cases hc : parentChainFuel itemId fuel it₀.parent with
    | none => rw [hc] at h; cases h
    | some c₀ =>
      rw [hc] at h
      cases hr : calcParentsGo itemId fuel rest with
      | none => rw [hr] at h; cases h
      | some d =>
        rw [hr] at h
        simp only [Option.some_inj] at h
        subst h
        simp only [List.map_cons, List.nodup_cons] at hnodup
        rcases List.mem_cons.mp hmem with h' | h'
        · obtain ⟨hk, hit⟩ := Prod.mk.injEq .. ▸ h'
          subst hk
          subst hit
          refine ⟨c₀, hc, ?_⟩
          by_cases hemp : c₀.isEmpty
          · rw [if_pos hemp]
            have hknotin : ∀ q ∈ d, q.1 ≠ k := fun q hq heq =>
              hnodup.1 (heq ▸ calcParentsGo_keys _ _ hr _ hq)
            have : d.get? k = Option.none := by
              refine get?_eq_none_of_notMem_keys (fun hmem' => ?_)
              rcases List.mem_map.mp hmem' with ⟨q, hq, hq1⟩
              exact hknotin q hq hq1
            rw [Dict.getD, this]
            simpa [List.isEmpty_iff] using hemp
          · rw [if_neg hemp]
            simp [Dict.getD, Dict.get?]
        · have hkrest : k ∈ rest.map Prod.fst :=
            List.mem_map_of_mem Prod.fst h'
          have hkne : k ≠ k₀ := fun heq => hnodup.1 (heq ▸ hkrest)
          rcases ih _ hr hnodup.2 _ _ h' with ⟨c, hc', hd⟩
          refine ⟨c, hc', ?_⟩
          by_cases hemp : c₀.isEmpty
          · rw [if_pos hemp]; exact hd
          · rw [if_neg hemp]
            rw [Dict.getD, Dict.get?, if_neg hkne.symm]
            exact hd

/-! ### Bridging a constructed store back to the input list -/

theorem mkTreeStore_eq {items : List Item} {fuel : Nat} {ts : TreeStore}
    (h : mkTreeStore items fuel = some ts) :
    ts.items = items ∧ ts.itemId = (createDictsForItems items).1 ∧
      ts.parentChild = (createDictsForItems items).2 ∧
      calcParentsGo ts.itemId fuel ts.itemId = some ts.idAllParents := by
  rw [mkTreeStore] at h
  cases hc : calculateParents (createDictsForItems items).1 fuel with
  | none => rw [hc] at h; cases h
  | some ap =>
    rw [hc] at h
    simp only [Option.some_inj] at h
    subst h
    exact ⟨rfl, rfl, rfl, hc⟩

theorem itemId_entries (items : List Item) :
    ∀ q ∈ (createDictsForItems items).1, q.2 ∈ items ∧ q.2.id = q.1 := by
  intro q hq
  rcases mem_createDictsGo_fst items [] [] q hq with h | h
  · simp at h
  · exact h

theorem itemId_nodupKeys (items : List Item) :
    (((createDictsForItems items).1).map Prod.fst).Nodup :=
  nodupKeys_createDictsGo_fst items [] [] (by simp)

theorem get?_itemId_of_nodup {items : List Item} {it : Item} {X : Value}
    (hnodup : (items.map Item.id).Nodup) (hmem : it ∈ items) (hid : it.id = X) :
    (createDictsForItems items).1.get? X = some it := by
  rw [createDictsForItems, get?_createDictsGo_fst, lastWithId_of_nodup hnodup hmem hid]

theorem getD_parentChild (items : List Item) (v : Value) :
    (createDictsForItems items).2.getD v = items.filter (fun it => it.parent == v) := by
  rw [createDictsForItems, getD_createDictsGo_snd]
  simp [Dict.getD, Dict.get?]

theorem get?_of_mem_nodupKeys {β : Type} {d : Dict β} {k : Value} {v : β}
    (hnodup : (d.map Prod.fst).Nodup) (hmem : (k, v) ∈ d) : d.get? k = some v := by
  induction d with
  | nil => simp at hmem
  | cons hd tl ih =>
    obtain ⟨a, b⟩ := hd
    simp only [List.map_cons, List.nodup_cons] at hnodup
    rcases List.mem_cons.mp hmem with h | h
    · obtain ⟨hk, hv⟩ := Prod.mk.injEq .. ▸ h
      subst hk
      subst hv
      simp [Dict.get?]
    · have hk : a ≠ k := fun heq =>
        hnodup.1 (heq ▸ List.mem_map_of_mem Prod.fst h)
      simp only [Dict.get?, if_neg hk]
      exact ih hnodup.2 h

theorem le_foldr_max {l : List Nat} {x : Nat} (h : x ∈ l) : x ≤ l.foldr max 0 := by
  induction l with
  | nil => simp at h
  | cons a tl ih =>
    rcases List.mem_cons.mp h with h' | h'
    · subst h'
      simp [List.foldr]
    · exact le_trans (ih h') (by simp [List.foldr])

/-- Shared helper: under closedness and a rank certificate for acyclicity,
`__init__` finishes — there is enough fuel to build the store. -/
theorem mkTreeStore_total_aux (items : List Item)
    (hclosed : ∀ it ∈ items, it.parent = rootSentinel ∨ ∃ j ∈ items, j.id = it.parent)
    (hacyclic : ∃ rank : Value → Nat,
      ∀ it ∈ items, ∀ p ∈ items, p.id = it.parent → rank p.id < rank it.id) :
    ∃ fuel ts, mkTreeStore items fuel = some ts := by
  obtain ⟨rank, hrank⟩ := hacyclic
  set d := (createDictsForItems items).1 with hd
  have hdclosed : ∀ q ∈ d, q.2.parent = rootSentinel ∨ (d.get? q.2.parent).isSome := by
    intro q hq
    rcases itemId_entries items q hq with ⟨hmem, _⟩
    rcases hclosed _ hmem with h | h
    · exact Or.inl h
    · exact Or.inr ((get?_itemId_isSome_iff items q.2.parent).mpr h)
  have hdrank : ∀ p ∈ d, ∀ q ∈ d, q.1 = p.2.parent → rank q.1 < rank p.1 := by
    intro p hp q hq heq
    rcases itemId_entries items p hp with ⟨hpmem, hpid⟩
    rcases itemId_entries items q hq with ⟨hqmem, hqid⟩
    have := hrank _ hpmem _ hqmem (by rw [hqid, heq])
    rwa [hqid, hpid] at this
  set N := (d.map (fun q => rank q.1)).foldr max 0 with hN
  have hwalk : ∀ q ∈ d, ∃ c, parentChainFuel d (N + 1) q.2.parent = some c := by
    intro q hq
    obtain ⟨k, it⟩ := q
    have hget : d.get? k = some it := get?_of_mem_nodupKeys (itemId_nodupKeys items) hq
    have hle : rank k ≤ N := le_foldr_max (List.mem_map_of_mem (fun q => rank q.1) hq)
    exact parentChainFuel_total hdclosed hdrank N k it hget hle
  rcases calcParentsGo_total d hwalk with ⟨ap, hap⟩
  refine ⟨N + 1, ⟨items, d, (createDictsForItems items).2, ap⟩, ?_⟩
  rw [mkTreeStore]
  simp only [calculateParents]
  rw [← hd, hap]

/-- Shared helper: for a valid id `X`, `getChildren` returns exactly the
input items whose parent is `X`, in input order. -/
theorem getChildren_ok_filter {items : List Item} {fuel : Nat} {ts : TreeStore}
    (hmk : mkTreeStore items fuel = some ts) {X : Value}
    (hX : ∃ it ∈ items, it.id = X) :
    (ts.getChildren X).1 = Except.ok (items.filter (fun it => it.parent == X)) := by
  obtain ⟨-, hid, hpc, -⟩ := mkTreeStore_eq hmk
  have hsome : (ts.itemId.get? X).isSome := by
    rw [hid]; exact (get?_itemId_isSome_iff items X).mpr hX
  rw [TreeStore.getChildren]
  cases hget : ts.itemId.get? X with
  | none => rw [hget] at hsome; simp at hsome
  | some it =>
    simp only
    rw [Dict.getDefault_fst, hpc, getD_parentChild]

/-- Shared helper: under unique ids, `getItem` of an input item's id
returns that very record. -/
theorem getItem_ok_of_nodup {items : List Item} {fuel : Nat} {ts : TreeStore}
    (hmk : mkTreeStore items fuel = some ts)
    (hnodup : (items.map Item.id).Nodup) {it : Item} {X : Value}
    (hmem : it ∈ items) (hid : it.id = X) :
    ts.getItem X = Except.ok it := by
  obtain ⟨-, hiid, -, -⟩ := mkTreeStore_eq hmk
  rw [TreeStore.getItem, hiid, get?_itemId_of_nodup hnodup hmem hid]

/-! ### Unfolding the queries branchwise -/

theorem getItem_of_none {ts : TreeStore} {ID : Value}
    (h : ts.itemId.get? ID = Option.none) : ts.getItem ID = Except.error ID := by
  unfold TreeStore.getItem
  rw [h]

theorem getItem_of_some {ts : TreeStore} {ID : Value} {it : Item}
    (h : ts.itemId.get? ID = some it) : ts.getItem ID = Except.ok it := by
  unfold TreeStore.getItem
  rw [h]

theorem getChildren_of_none {ts : TreeStore} {ID : Value}
    (h : ts.itemId.get? ID = Option.none) : ts.getChildren ID = (Except.error ID, ts) := by
  unfold TreeStore.getChildren
  rw [h]

theorem getChildren_of_some {ts : TreeStore} {ID : Value} {it : Item}
    (h : ts.itemId.get? ID = some it) :
    ts.getChildren ID =
      (Except.ok (ts.parentChild.getD ID),
       { ts with parentChild := (ts.parentChild.getDefault ID).2 }) := by
  unfold TreeStore.getChildren
  rw [h, ← Dict.getDefault_fst]

theorem getAllParents_of_none {ts : TreeStore} {ID : Value}
    (h : ts.itemId.get? ID = Option.none) : ts.getAllParents ID = (Except.error ID, ts) := by
  unfold TreeStore.getAllParents
  rw [h]

theorem getAllParents_of_some {ts : TreeStore} {ID : Value} {it : Item}
    (h : ts.itemId.get? ID = some it) :
    ts.getAllParents ID =
      (Except.ok (ts.idAllParents.getD ID),
       { ts with idAllParents := (ts.idAllParents.getDefault ID).2 }) := by
  unfold TreeStore.getAllParents
  rw [h, ← Dict.getDefault_fst]

/-! ### The claims -/

/-- Claim C4: for every constructed store, `getAll` returns the original
input sequence unmodified and in order; being a plain list-valued accessor
it has no error outcome. -/
theorem getAll_returns_input {items : List Item} {fuel : Nat} {ts : TreeStore}
    (hmk : mkTreeStore items fuel = some ts) : ts.getAll = items :=
  (mkTreeStore_eq hmk).1

/-- Witness for C4 on the repository's test input. -/
theorem getAll_returns_input_witness :
    mkTreeStore testItems 9 = some testStore ∧ testStore.getAll = testItems :=
  ⟨by decide, @getAll_returns_input testItems 9 testStore (by decide)⟩

/-- Claim C5: under unique ids, `getItem X` returns exactly the input
record whose id is `X`, extra fields included (the result is the whole
`Item`, `extra` field and all). -/
theorem getItem_returns_exact_record {items : List Item} {fuel : Nat} {ts : TreeStore}
    (hmk : mkTreeStore items fuel = some ts)
    (hnodup : (items.map Item.id).Nodup)
    {it : Item} {X : Value} (hmem : it ∈ items) (hid : it.id = X) :
    ts.getItem X = Except.ok it :=
  getItem_ok_of_nodup hmk hnodup hmem hid

/-- Witness for C5: `getItem 7` on the test input returns item 7 with its
extra `"type": None` field intact. -/
theorem getItem_returns_exact_record_witness :
    mkTreeStore testItems 9 = some testStore ∧ (testItems.map Item.id).Nodup ∧
      testStore.getItem (Value.int 7) =
        Except.ok ⟨Value.int 7, Value.int 4, [("type", Value.none)]⟩ :=
  ⟨by decide, by decide,
   @getItem_returns_exact_record testItems 9 testStore (by decide) (by decide)
     ⟨Value.int 7, Value.int 4, [("type", Value.none)]⟩ (Value.int 7) (by decide) rfl⟩

/-- Claim C3: each of `getItem`, `getChildren`, `getAllParents` raises
`IdNotFound` carrying the queried id exactly when no input item has that
id — ids appearing only as parent values (the sentinel included) are
rejected, and an existing childless item is not. -/
theorem queries_idNotFound_iff {items : List Item} {fuel : Nat} {ts : TreeStore}
    (hmk : mkTreeStore items fuel = some ts) (X : Value) :
    (ts.getItem X = Except.error X ↔ ¬∃ it ∈ items, it.id = X) ∧
      ((ts.getChildren X).1 = Except.error X ↔ ¬∃ it ∈ items, it.id = X) ∧
      ((ts.getAllParents X).1 = Except.error X ↔ ¬∃ it ∈ items, it.id = X) := by
  obtain ⟨-, hiid, -, -⟩ := mkTreeStore_eq hmk
  have hiff : (ts.itemId.get? X).isSome ↔ ∃ it ∈ items, it.id = X := by
    rw [hiid]
    exact get?_itemId_isSome_iff items X
  cases hget : ts.itemId.get? X with
  | none =>
    have hnot : ¬∃ it ∈ items, it.id = X := by
      rw [← hiff, hget]
      simp
    rw [getItem_of_none hget, getChildren_of_none hget, getAllParents_of_none hget]
    simp [hnot]
  | some it =>
    have hyes : ∃ it ∈ items, it.id = X := hiff.mp (by simp [hget])
    rw [getItem_of_some hget, getChildren_of_some hget, getAllParents_of_some hget]
    simp [hyes]

/-- Witness for C3 at the absent id 0 of the test input. -/
theorem queries_idNotFound_iff_witness :
    mkTreeStore testItems 9 = some testStore ∧
      ((testStore.getItem (Value.int 0) = Except.error (Value.int 0) ↔
          ¬∃ it ∈ testItems, it.id = Value.int 0) ∧
        ((testStore.getChildren (Value.int 0)).1 = Except.error (Value.int 0) ↔
          ¬∃ it ∈ testItems, it.id = Value.int 0) ∧
        ((testStore.getAllParents (Value.int 0)).1 = Except.error (Value.int 0) ↔
          ¬∃ it ∈ testItems, it.id = Value.int 0)) :=
  ⟨by decide, @queries_idNotFound_iff testItems 9 testStore (by decide) (Value.int 0)⟩

/-- Claim C2: for a valid id `X`, `getChildren X` returns exactly the input
items whose parent is `X`, in input order (the filter of the input list);
in particular every element has parent `X`, every input item with parent
`X` occurs, and the result is empty when no item has parent `X`. -/
theorem getChildren_children_spec {items : List Item} {fuel : Nat} {ts : TreeStore}
    (hmk : mkTreeStore items fuel = some ts) {X : Value}
    (hX : ∃ it ∈ items, it.id = X) :
    ∃ r, (ts.getChildren X).1 = Except.ok r ∧
      r = items.filter (fun it => it.parent == X) ∧
      (∀ c ∈ r, c.parent = X) ∧
      (∀ i ∈ items, i.parent = X → i ∈ r) ∧
      ((∀ i ∈ items, i.parent ≠ X) → r = []) := by
  refine ⟨items.filter (fun it => it.parent == X),
    getChildren_ok_filter hmk hX, rfl, ?_, ?_, ?_⟩
  · intro c hc
    exact eq_of_beq (List.mem_filter.mp hc).2
  · intro i hi hp
    exact List.mem_filter.mpr ⟨hi, by simp [hp]⟩
  · intro h
    rw [List.filter_eq_nil_iff]
    intro a ha
    simp [h a ha]

/-- Witness for C2 at id 4 of the test input (children 7 and 8). -/
theorem getChildren_children_spec_witness :
    mkTreeStore testItems 9 = some testStore ∧ (∃ it ∈ testItems, it.id = Value.int 4) ∧
      ∃ r, (testStore.getChildren (Value.int 4)).1 = Except.ok r ∧
        r = testItems.filter (fun it => it.parent == Value.int 4) ∧
        (∀ c ∈ r, c.parent = Value.int 4) ∧
        (∀ i ∈ testItems, i.parent = Value.int 4 → i ∈ r) ∧
        ((∀ i ∈ testItems, i.parent ≠ Value.int 4) → r = []) :=
  ⟨by decide, by decide,
   @getChildren_children_spec testItems 9 testStore (by decide) (Value.int 4) (by decide)⟩

/-- Claim C10: for a valid id `X`, every element returned by
`getChildren X` round-trips through `getItem` — looking up its id returns
the very same record, so the id and children mappings are consistent. -/
theorem getChildren_getItem_roundtrip {items : List Item} {fuel : Nat} {ts : TreeStore}
    (hmk : mkTreeStore items fuel = some ts)
    (hnodup : (items.map Item.id).Nodup)
    {X : Value} (hX : ∃ it ∈ items, it.id = X) :
    ∃ r, (ts.getChildren X).1 = Except.ok r ∧
      ∀ c ∈ r, ts.getItem c.id = Except.ok c := by
  refine ⟨_, getChildren_ok_filter hmk hX, ?_⟩
  intro c hc
  exact getItem_ok_of_nodup hmk hnodup (List.mem_filter.mp hc).1 rfl

/-- Witness for C10 at id 2 of the test input. -/
theorem getChildren_getItem_roundtrip_witness :
    mkTreeStore testItems 9 = some testStore ∧ (testItems.map Item.id).Nodup ∧
      (∃ it ∈ testItems, it.id = Value.int 2) ∧
      ∃ r, (testStore.getChildren (Value.int 2)).1 = Except.ok r ∧
        ∀ c ∈ r, testStore.getItem c.id = Except.ok c :=
  ⟨by decide, by decide, by decide,
   @getChildren_getItem_roundtrip testItems 9 testStore (by decide) (by decide)
     (Value.int 2) (by decide)⟩

/-- Claim C1: under the Data Model invariants, `getAllParents X` for an
input item with id `X` succeeds and the returned sequence is the ancestor
chain of `X`: nearest ancestor first — its head is the item referenced by
`X`'s parent, each element's parent is the next element's id, the last
element's parent is the root sentinel — and it is empty when `X`'s parent
is the sentinel itself. -/
theorem getAllParents_ancestor_chain {items : List Item} {fuel : Nat} {ts : TreeStore}
    (hmk : mkTreeStore items fuel = some ts)
    (hnodup : (items.map Item.id).Nodup)
    {it : Item} {X : Value} (hmem : it ∈ items) (hid : it.id = X) :
    ∃ c, (ts.getAllParents X).1 = Except.ok c ∧
      SpecAncestorChain items it.parent c ∧
      (it.parent = rootSentinel → c = []) := by
  obtain ⟨-, hiid, -, hcalc⟩ := mkTreeStore_eq hmk
  have hget : ts.itemId.get? X = some it := by
    rw [hiid]
    exact get?_itemId_of_nodup hnodup hmem hid
  have hkeys : (ts.itemId.map Prod.fst).Nodup := by
    rw [hiid]
    exact itemId_nodupKeys items
  rcases calcParentsGo_getD _ _ hcalc hkeys X it (Dict.get?_mem hget) with ⟨c, hc, hgd⟩
  have hent : ∀ q ∈ ts.itemId, q.2 ∈ items ∧ q.2.id = q.1 := by
    rw [hiid]
    exact itemId_entries items
  refine ⟨c, ?_, parentChainFuel_spec hent fuel it.parent c hc, fun hroot => ?_⟩
  · rw [getAllParents_of_some hget]
    simp only
    rw [hgd]
  · rw [hroot] at hc
    exact parentChainFuel_rootSentinel hc

/-- Witness for C1 at id 7 of the test input (chain 4, 2, 1). -/
theorem getAllParents_ancestor_chain_witness :
    mkTreeStore testItems 9 = some testStore ∧ (testItems.map Item.id).Nodup ∧
      ∃ c, (testStore.getAllParents (Value.int 7)).1 = Except.ok c ∧
        SpecAncestorChain testItems
          (Item.mk (Value.int 7) (Value.int 4) [("type", Value.none)]).parent c ∧
        ((Item.mk (Value.int 7) (Value.int 4) [("type", Value.none)]).parent = rootSentinel →
          c = []) :=
  ⟨by decide, by decide,
   @getAllParents_ancestor_chain testItems 9 testStore (by decide) (by decide)
     ⟨Value.int 7, Value.int 4, [("type", Value.none)]⟩ (Value.int 7) (by decide) rfl⟩

/-- Claim C6: for every finite input satisfying the Data Model invariants
(unique ids, parent references closed under the item set, parent relation
acyclic as certified by a rank function), `__init__` terminates: some
finite fuel makes every ancestor walk reach the sentinel and yields a
ready store. -/
theorem construction_terminates (items : List Item)
    (hnodup : (items.map Item.id).Nodup)
    (hclosed : ∀ it ∈ items, it.parent = rootSentinel ∨ ∃ j ∈ items, j.id = it.parent)
    (hacyclic : ∃ rank : Value → Nat,
      ∀ it ∈ items, ∀ p ∈ items, p.id = it.parent → rank p.id < rank it.id) :
    ∃ fuel ts, mkTreeStore items fuel = some ts :=
  mkTreeStore_total_aux items hclosed hacyclic

/-- Witness for C6 on the repository's test input, ranked by integer id. -/
theorem construction_terminates_witness :
    ((testItems.map Item.id).Nodup ∧
      (∀ it ∈ testItems, it.parent = rootSentinel ∨ ∃ j ∈ testItems, j.id = it.parent) ∧
      (∀ it ∈ testItems, ∀ p ∈ testItems, p.id = it.parent → intRank p.id < intRank it.id)) ∧
    ∃ fuel ts, mkTreeStore testItems fuel = some ts :=
  ⟨⟨by decide, by decide, by decide⟩,
   construction_terminates testItems (by decide) (by decide) ⟨intRank, by decide⟩⟩

/-- Claim C9: `getChildren` at the root sentinel raises `IdNotFound`
whenever the sentinel is no item's id, although the root items are exactly
what the children mapping stores under the sentinel key — so they are
unreachable as "children of the sentinel" through the public interface. -/
theorem getChildren_root_sentinel_rejected {items : List Item} {fuel : Nat} {ts : TreeStore}
    (hmk : mkTreeStore items fuel = some ts)
    (hids : ∀ it ∈ items, it.id ≠ rootSentinel) :
    (ts.getChildren rootSentinel).1 = Except.error rootSentinel ∧
      ts.parentChild.getD rootSentinel =
        items.filter (fun it => it.parent == rootSentinel) := by
  obtain ⟨-, hiid, hpc, -⟩ := mkTreeStore_eq hmk
  have hget : ts.itemId.get? rootSentinel = Option.none := by
    cases hs : ts.itemId.get? rootSentinel with
    | none => rfl
    | some j =>
      have hex : ∃ it ∈ items, it.id = rootSentinel := by
        refine (get?_itemId_isSome_iff items rootSentinel).mp ?_
        rw [← hiid, hs]
        rfl
      rcases hex with ⟨j', hj', hjid⟩
      exact absurd hjid (hids j' hj')
  refine ⟨?_, ?_⟩
  · rw [getChildren_of_none hget]
  · rw [hpc]
    exact getD_parentChild items rootSentinel

/-- Witness for C9 on the test input, whose only root item is item 1. -/
theorem getChildren_root_sentinel_rejected_witness :
    mkTreeStore testItems 9 = some testStore ∧
      (∀ it ∈ testItems, it.id ≠ rootSentinel) ∧
      ((testStore.getChildren rootSentinel).1 = Except.error rootSentinel ∧
        testStore.parentChild.getD rootSentinel =
          testItems.filter (fun it => it.parent == rootSentinel)) :=
  ⟨by decide, by decide,
   @getChildren_root_sentinel_rejected testItems 9 testStore (by decide) (by decide)⟩

theorem lastWithId_eq_none {l : List Item} {X : Value}
    (h : ∀ c ∈ l, c.id ≠ X) : lastWithId l X = Option.none := by
  induction l with
  | nil => rfl
  | cons it rest ih =>
    rw [lastWithId_cons, ih (fun c hc => h c (List.mem_cons_of_mem _ hc))]
    simp [h it (List.mem_cons_self _ _)]

theorem lastWithId_append (l l' : List Item) (X : Value) :
    lastWithId (l ++ l') X =
      match lastWithId l' X with
      | some j => some j
      | Option.none => lastWithId l X := by
  induction l with
  | nil =>
    simp only [List.nil_append]
    cases lastWithId l' X <;> simp [lastWithId]
  | cons it rest ih =>
    rw [List.cons_append, lastWithId_cons, ih, lastWithId_cons]
    cases lastWithId l' X <;> cases lastWithId rest X <;> simp

/-- Claim C8: with duplicate ids (`a` before `b`, `b` the last item with id
`X`) and an otherwise well-formed input, construction still succeeds with
no error and the later record silently wins: `getItem X` returns `b`. -/
theorem duplicate_id_last_wins {items : List Item} {X : Value}
    {l₁ l₂ l₃ : List Item} {a b : Item}
    (hsplit : items = l₁ ++ a :: (l₂ ++ b :: l₃))
    (ha : a.id = X) (hb : b.id = X)
    (hafter : ∀ c ∈ l₃, c.id ≠ X)
    (hclosed : ∀ it ∈ items, it.parent = rootSentinel ∨ ∃ j ∈ items, j.id = it.parent)
    (hacyclic : ∃ rank : Value → Nat,
      ∀ it ∈ items, ∀ p ∈ items, p.id = it.parent → rank p.id < rank it.id) :
    ∃ fuel ts, mkTreeStore items fuel = some ts ∧ ts.getItem X = Except.ok b := by
  rcases mkTreeStore_total_aux items hclosed hacyclic with ⟨fuel, ts, hmk⟩
  refine ⟨fuel, ts, hmk, ?_⟩
  obtain ⟨-, hiid, -, -⟩ := mkTreeStore_eq hmk
  have hb3 : lastWithId (b :: l₃) X = some b := by
    rw [lastWithId_cons, lastWithId_eq_none hafter]
    simp [hb]
  have h23 : lastWithId (l₂ ++ b :: l₃) X = some b := by
    rw [lastWithId_append, hb3]
  have ha23 : lastWithId (a :: (l₂ ++ b :: l₃)) X = some b := by
    rw [lastWithId_cons, h23]
  have hlast : lastWithId items X = some b := by
    rw [hsplit, lastWithId_append, ha23]
  have hget : ts.itemId.get? X = some b := by
    rw [hiid, createDictsForItems, get?_createDictsGo_fst, hlast]
  exact getItem_of_some hget

/-- Witness for C8: in `dupItems` the id 1 occurs twice and `getItem 1`
returns the later record, extra field included. -/
theorem duplicate_id_last_wins_witness :
    (dupItems = [] ++ ⟨Value.int 1, rootSentinel, []⟩ ::
        ([⟨Value.int 2, Value.int 1, []⟩] ++
          ⟨Value.int 1, rootSentinel, [("type", Value.str "new")]⟩ :: []) ∧
      (∀ it ∈ dupItems, it.parent = rootSentinel ∨ ∃ j ∈ dupItems, j.id = it.parent)) ∧
    ∃ fuel ts, mkTreeStore dupItems fuel = some ts ∧
      ts.getItem (Value.int 1) =
        Except.ok ⟨Value.int 1, rootSentinel, [("type", Value.str "new")]⟩ :=
  ⟨⟨by decide, by decide⟩,
   @duplicate_id_last_wins dupItems (Value.int 1) []
     [⟨Value.int 2, Value.int 1, []⟩] [] ⟨Value.int 1, rootSentinel, []⟩
     ⟨Value.int 1, rootSentinel, [("type", Value.str "new")]⟩
     (by decide) rfl rfl (by decide) (by decide) ⟨intRank, by decide⟩⟩

/-- Claim C7 counterexample: a query does mutate the stored state.  Item 5
of the test input has no children, so `parentChild` has no key 5; the
`defaultdict` access inside `getChildren 5` inserts the default entry
`(5, [])`, and the store after the call differs from the store before. -/
theorem getChildren_mutates_store_counterexample :
    ((testStore.getChildren (Value.int 5)).2 ≠ testStore ∧
        (testStore.getChildren (Value.int 5)).2.parentChild ≠ testStore.parentChild) ∧
      (testStore.getAllParents (Value.int 1)).2 ≠ testStore := by
  decide

theorem queries_results_determined {ts' ts : TreeStore}
    (hitems : ts'.items = ts.items) (hiid : ts'.itemId = ts.itemId)
    (hpc : ∀ Y, ts'.parentChild.getD Y = ts.parentChild.getD Y)
    (hap : ∀ Y, ts'.idAllParents.getD Y = ts.idAllParents.getD Y) :
    ∀ Y, ts'.getItem Y = ts.getItem Y ∧
      (ts'.getChildren Y).1 = (ts.getChildren Y).1 ∧
      (ts'.getAllParents Y).1 = (ts.getAllParents Y).1 ∧
      ts'.getAll = ts.getAll := by
  intro Y
  cases hget : ts.itemId.get? Y with
  | none =>
    have hget' : ts'.itemId.get? Y = Option.none := by rw [hiid, hget]
    rw [getItem_of_none hget, getItem_of_none hget', getChildren_of_none hget,
      getChildren_of_none hget', getAllParents_of_none hget, getAllParents_of_none hget']
    refine ⟨rfl, rfl, rfl, ?_⟩
    show ts'.items = ts.items
    exact hitems
  | some it =>
    have hget' : ts'.itemId.get? Y = some it := by rw [hiid, hget]
    rw [getItem_of_some hget, getItem_of_some hget', getChildren_of_some hget,
      getChildren_of_some hget', getAllParents_of_some hget, getAllParents_of_some hget']
    refine ⟨rfl, ?_, ?_, ?_⟩
    · simp only
      rw [hpc]
    · simp only
      rw [hap]
    · show ts'.items = ts.items
      exact hitems

theorem getChildren_snd_preserves (ts : TreeStore) (X : Value) :
    (ts.getChildren X).2.items = ts.items ∧ (ts.getChildren X).2.itemId = ts.itemId ∧
      (ts.getChildren X).2.idAllParents = ts.idAllParents ∧
      ∀ Y, (ts.getChildren X).2.parentChild.getD Y = ts.parentChild.getD Y := by
  cases hget : ts.itemId.get? X with
  | none =>
    rw [getChildren_of_none hget]
    exact ⟨rfl, rfl, rfl, fun Y => rfl⟩
  | some it =>
    rw [getChildren_of_some hget]
    exact ⟨rfl, rfl, rfl, fun Y => Dict.getDefault_snd_getD ts.parentChild X Y⟩

theorem getAllParents_snd_preserves (ts : TreeStore) (X : Value) :
    (ts.getAllParents X).2.items = ts.items ∧ (ts.getAllParents X).2.itemId = ts.itemId ∧
      (ts.getAllParents X).2.parentChild = ts.parentChild ∧
      ∀ Y, (ts.getAllParents X).2.idAllParents.getD Y = ts.idAllParents.getD Y := by
  cases hget : ts.itemId.get? X with
  | none =>
    rw [getAllParents_of_none hget]
    exact ⟨rfl, rfl, rfl, fun Y => rfl⟩
  | some it =>
    rw [getAllParents_of_some hget]
    exact ⟨rfl, rfl, rfl, fun Y => Dict.getDefault_snd_getD ts.idAllParents X Y⟩

/-- Claim C7 (amended): every query's observable result is stable — after a
`getChildren` or `getAllParents` call the item list and the id mapping are
unchanged and every query returns the same value as before (so repeating a
query yields an identical result) — but the two defaultdict-backed
mappings may gain empty default entries, so the stored state itself is not
always unchanged. -/
theorem queries_preserve_query_results (ts : TreeStore) (X Y : Value) :
    ((ts.getChildren X).2.items = ts.items ∧ (ts.getChildren X).2.itemId = ts.itemId ∧
      (ts.getAllParents X).2.items = ts.items ∧ (ts.getAllParents X).2.itemId = ts.itemId) ∧
    ((ts.getChildren X).2.getItem Y = ts.getItem Y ∧
      ((ts.getChildren X).2.getChildren Y).1 = (ts.getChildren Y).1 ∧
      ((ts.getChildren X).2.getAllParents Y).1 = (ts.getAllParents Y).1 ∧
      (ts.getChildren X).2.getAll = ts.getAll) ∧
    ((ts.getAllParents X).2.getItem Y = ts.getItem Y ∧
      ((ts.getAllParents X).2.getChildren Y).1 = (ts.getChildren Y).1 ∧
      ((ts.getAllParents X).2.getAllParents Y).1 = (ts.getAllParents Y).1 ∧
      (ts.getAllParents X).2.getAll = ts.getAll) := by
  obtain ⟨hc1, hc2, hc3, hc4⟩ := getChildren_snd_preserves ts X
  obtain ⟨hp1, hp2, hp3, hp4⟩ := getAllParents_snd_preserves ts X
  refine ⟨⟨hc1, hc2, hp1, hp2⟩, ?_, ?_⟩
  · exact queries_results_determined hc1 hc2 hc4 (fun Z => by rw [hc3]) Y
  · exact queries_results_determined hp1 hp2 (fun Z => by rw [hp3]) hp4 Y
